import Mathlib

/-!
Verification of the function-call parsing and dispatch layer of the
functiongemma-test repository.

The embedding covers:
* `Main.parse_function_call` — `SystemDiagnosisChat.parse_function_call`
  (src/main.py, identical in src/main_windows.py): three regular-expression
  patterns tried in priority order with `re.findall`.
* `FineTuned.parse_function_call` — `FineTunedAgent.parse_function_call`
  (src/main_finetuned.py): two patterns tried with `re.search`, plus
  escape-delimited / JSON / `eval` argument decoding.
* `Main.execute_function_call`, `Main.format_function_results`,
  `FineTuned.execute_function` — the executors and result normalizers.

Strings are modelled as `List Char`.  The character classes are the ASCII
fragments of Python's `\w` and `\s` (all protocol text in the repository is
ASCII).  Regular-expression matching is embedded as executable scanning
functions whose step-by-step behaviour mirrors Python's leftmost,
non-overlapping match semantics for these particular patterns (each pattern
here is backtracking-free: every greedy or lazy sub-pattern is followed by a
character its class excludes, so maximal / minimal munch is exact).
-/

namespace FunctionGemma

/-- ASCII fragment of Python's regex class `\w` (`[A-Za-z0-9_]`). -/
def isWordChar (c : Char) : Bool := c.isAlphanum || c == '_'

/-- ASCII fragment of Python's regex class `\s` and of `str.strip`'s
whitespace set. -/
def isSpaceChar (c : Char) : Bool :=
  c == ' ' || c == '\t' || c == '\n' || c == '\r' || c == '\x0b' || c == '\x0c'

/-- Python's `str.strip()` (ASCII whitespace). -/
def pyStrip (l : List Char) : List Char :=
  ((l.dropWhile isSpaceChar).reverse.dropWhile isSpaceChar).reverse

/-- The literal `call:` from the regex patterns. -/
def CALL_COLON : List Char := ['c', 'a', 'l', 'l', ':']

/-- The literal `call` from the spaced pattern. -/
def CALL_WORD : List Char := ['c', 'a', 'l', 'l']

/-- The literal start marker of the fully-bracketed pattern. -/
def START_MARK : List Char := ("<start_function_call>").data

/-- The literal end marker of the fully-bracketed pattern. -/
def END_MARK : List Char := ("<end_function_call>").data

/-- The sentinel token of the escape-delimited argument convention. -/
def ESC_TOK : List Char := ("<escape>").data

/-- The literal of the escape-argument regex up to the capture group. -/
def MSG_ESC : List Char := ("message:<escape>").data

/-- The literal `"message"` (quotes included) of the JSON-argument regex. -/
def QMSG : List Char := ("\"message\"").data

/-- True when the character is not a closing brace; the class `[^}]` and the
lazy `.*?` that must stop at the first `}` both take maximal/minimal runs of
exactly these characters. -/
def notRBrace (c : Char) : Bool := c != '\x7d'

/-- Match a literal prefix; on success return the remainder of the input. -/
def stripPrefixL : List Char → List Char → Option (List Char)
  | [], s => some s
  | _ :: _, [] => none
  | p :: ps, c :: cs => if c = p then stripPrefixL ps cs else none

/-- Whether `nd` occurs as a contiguous substring of the input. -/
def containsSubL (nd : List Char) : List Char → Bool
  | [] => nd.isEmpty
  | c :: t => nd.isPrefixOf (c :: t) || containsSubL nd t

/-- Split the input at the first occurrence of `nd`: returns the part before
the occurrence and the part after it.  This is the semantics of a lazy `.*?`
capture followed by the literal `nd`. -/
def splitFirst (nd : List Char) : List Char → Option (List Char × List Char)
  | [] => if nd.isEmpty then some ([], []) else none
  | c :: t =>
    if nd.isPrefixOf (c :: t) then some ([], (c :: t).drop nd.length)
    else
      match splitFirst nd t with
      | some (pre, post) => some (c :: pre, post)
      | none => none

/-- Consume the optional argument blob `(?:\{[^}]*\})?` at the head of the
input and return the remainder; when no complete `{...}` blob is present the
optional group matches the empty string and the input is returned unchanged. -/
def braceOpt (rest2 : List Char) : List Char :=
  match rest2 with
  | '\x7b' :: r3 =>
    (match r3.dropWhile notRBrace with
     | '\x7d' :: r5 => r5
     | _ => rest2)
  | _ => rest2

namespace Main

/-- One attempted match of the pattern `call:(\w+)(?:\{[^}]*\})?` at the head
of the input (src/main.py line 270).  On success, returns the captured
function name and the remainder of the input after the whole match. -/
def matchBare (s : List Char) : Option (List Char × List Char) :=
  match stripPrefixL CALL_COLON s with
  | none => none
  | some rest =>
    let name := rest.takeWhile isWordChar
    if name = [] then none
    else some (name, braceOpt (rest.dropWhile isWordChar))

/-- One attempted match of the pattern `call\s+(\w+)(?:\{[^}]*\})?` at the
head of the input (src/main.py line 271). -/
def matchSpaced (s : List Char) : Option (List Char × List Char) :=
  match stripPrefixL CALL_WORD s with
  | none => none
  | some rest =>
    if rest.takeWhile isSpaceChar = [] then none
    else
      let rest1 := rest.dropWhile isSpaceChar
      let name := rest1.takeWhile isWordChar
      if name = [] then none
      else some (name, braceOpt (rest1.dropWhile isWordChar))

/-- One attempted match of the pattern
`<start_function_call>call:(\w+)(?:\{[^}]*\})?<end_function_call>` at the
head of the input (src/main.py line 269).  The optional brace group commits
when a complete `{...}` blob follows the name (the empty alternative can
never rescue the match, because the end marker starts with `<` while the
position starts with `{`). -/
def matchBracketed (s : List Char) : Option (List Char × List Char) :=
  match stripPrefixL (START_MARK ++ CALL_COLON) s with
  | none => none
  | some rest =>
    let name := rest.takeWhile isWordChar
    if name = [] then none
    else
      match rest.dropWhile isWordChar with
      | '\x7b' :: r3 =>
        (match r3.dropWhile notRBrace with
         | '\x7d' :: r5 =>
           (match stripPrefixL END_MARK r5 with
            | some r6 => some (name, r6)
            | none => none)
         | _ => none)
      | rest2 =>
        (match stripPrefixL END_MARK rest2 with
         | some r6 => some (name, r6)
         | none => none)

/-- Fuel-indexed scanner implementing `re.findall` for a single pattern:
try a match at every position from left to right; on a match, record the
capture and resume after the matched text (non-overlapping); otherwise
advance one character.  The fuel only serves structural recursion; any fuel
larger than the input length gives the scan's fixed point. -/
def goFindall (m : List Char → Option (List Char × List Char)) :
    Nat → List Char → List (List Char)
  | 0, _ => []
  | _ + 1, [] => []
  | fuel + 1, c :: t =>
    match m (c :: t) with
    | some (n, r) => n :: goFindall m fuel r
    | none => goFindall m fuel t

/-- `re.findall` of the fully-bracketed pattern. -/
def findallBracketed (s : List Char) : List (List Char) :=
  goFindall matchBracketed (s.length + 1) s

/-- `re.findall` of the bare `call:` pattern. -/
def findallBare (s : List Char) : List (List Char) :=
  goFindall matchBare (s.length + 1) s

/-- `re.findall` of the spaced `call` pattern. -/
def findallSpaced (s : List Char) : List (List Char) :=
  goFindall matchSpaced (s.length + 1) s

/-- The `for pattern in patterns: ... if matches: return matches` loop of
`SystemDiagnosisChat.parse_function_call`. -/
def firstNonempty : List (List Char → List (List Char)) → List Char → List (List Char)
  | [], _ => []
  | p :: ps, s => if p s = [] then firstNonempty ps s else p s

/-- `SystemDiagnosisChat.parse_function_call` (src/main.py lines 265-281,
identical in src/main_windows.py lines 255-267): the three patterns are
tried in priority order and the first with at least one match supplies the
whole result; otherwise the result is the empty list. -/
def parse_function_call (model_output : List Char) : List (List Char) :=
  firstNonempty [findallBracketed, findallBare, findallSpaced] model_output

end Main

namespace FineTuned

/-- Result of the params decoding inside `FineTunedAgent.parse_function_call`
(src/main_finetuned.py lines 169-185).  `escMsg` and `jsonMsg` record the two
recognized `message`-field conventions; `evaled blob` records that the code
reaches `params = eval(params_str)` with exactly this blob — the params then
are whatever the Python evaluator yields for the blob as an expression (with
`{}` substituted when `eval` raises), which is outside the scope of the
embedding and is represented by this constructor. -/
inductive ParamsSrc where
  | escMsg (m : List Char)
  | jsonMsg (m : List Char)
  | evaled (blob : List Char)
  deriving DecidableEq, Repr

/-- One attempted match of the pattern `call:(\w+)(\{.*?\})?` (`re.DOTALL`)
at the head of the input (src/main_finetuned.py line 161).  On success,
returns the captured name and the captured group-2 blob (`none` when the
optional group matched nothing, i.e. Python's `match.group(2)` is `None`). -/
def matchBareFT (s : List Char) : Option (List Char × Option (List Char)) :=
  match stripPrefixL CALL_COLON s with
  | none => none
  | some rest =>
    let name := rest.takeWhile isWordChar
    if name = [] then none
    else
      match rest.dropWhile isWordChar with
      | '\x7b' :: r3 =>
        (match r3.dropWhile notRBrace with
         | '\x7d' :: _ =>
           some (name, some ('\x7b' :: (r3.takeWhile notRBrace ++ ['\x7d'])))
         | _ => some (name, none))
      | _ => some (name, none)

/-- One attempted match of `call\s+(\w+)(\{.*?\})?` (`re.DOTALL`) at the head
of the input (src/main_finetuned.py line 162). -/
def matchSpacedFT (s : List Char) : Option (List Char × Option (List Char)) :=
  match stripPrefixL CALL_WORD s with
  | none => none
  | some rest =>
    if rest.takeWhile isSpaceChar = [] then none
    else
      let rest1 := rest.dropWhile isSpaceChar
      let name := rest1.takeWhile isWordChar
      if name = [] then none
      else
        match rest1.dropWhile isWordChar with
        | '\x7b' :: r3 =>
          (match r3.dropWhile notRBrace with
           | '\x7d' :: _ =>
             some (name, some ('\x7b' :: (r3.takeWhile notRBrace ++ ['\x7d'])))
           | _ => some (name, none))
        | _ => some (name, none)

/-- `re.search` for one pattern: the match at the leftmost position where the
pattern matches, scanning left to right. -/
def searchFT (m : List Char → Option (List Char × Option (List Char))) :
    List Char → Option (List Char × Option (List Char))
  | [] => none
  | c :: t =>
    match m (c :: t) with
    | some r => some r
    | none => searchFT m t

/-- One attempted match of `message:<escape>(.*?)<escape>` (`re.DOTALL`) at
the head of the input: the literal, then the lazily captured text up to the
first following `<escape>` token. -/
def matchEscapeAt (s : List Char) : Option (List Char) :=
  match stripPrefixL MSG_ESC s with
  | none => none
  | some rest =>
    match splitFirst ESC_TOK rest with
    | some (grp, _) => some grp
    | none => none

/-- `re.search` of `message:<escape>(.*?)<escape>` over the params blob. -/
def searchEscape : List Char → Option (List Char)
  | [] => none
  | c :: t =>
    match matchEscapeAt (c :: t) with
    | some g => some g
    | none => searchEscape t

/-- One attempted match of `"message"\s*:\s*"([^"]*)"` at the head of the
input. -/
def matchJsonAt (s : List Char) : Option (List Char) :=
  match stripPrefixL QMSG s with
  | none => none
  | some r1 =>
    match r1.dropWhile isSpaceChar with
    | ':' :: r3 =>
      (match r3.dropWhile isSpaceChar with
       | '\"' :: r5 =>
         (match r5.dropWhile (fun c => c != '\"') with
          | '\"' :: _ => some (r5.takeWhile (fun c => c != '\"'))
          | _ => none)
       | _ => none)
    | _ => none

/-- `re.search` of `"message"\s*:\s*"([^"]*)"` over the params blob. -/
def searchJson : List Char → Option (List Char)
  | [] => none
  | c :: t =>
    match matchJsonAt (c :: t) with
    | some g => some g
    | none => searchJson t

/-- The params handling of `FineTunedAgent.parse_function_call`
(src/main_finetuned.py lines 169-185): `params_str = match.group(2) or "{}"`,
then the `<escape>` convention (with `.strip()`), then the JSON convention,
and finally `params = eval(params_str)` guarded by `except: params = {}`. -/
def decodeParams (blob : Option (List Char)) : ParamsSrc :=
  let params_str := blob.getD (("\x7b\x7d").data)
  match searchEscape params_str with
  | some m => .escMsg (pyStrip m)
  | none =>
    match searchJson params_str with
    | some m => .jsonMsg m
    | none => .evaled params_str

/-- `FineTunedAgent.parse_function_call` (src/main_finetuned.py lines
158-187): the two patterns are tried in order with `re.search`; the first
one that matches anywhere supplies the function name and the params; when
neither matches the Python code returns `(None, {})`, modelled as `none`. -/
def parse_function_call (response : List Char) :
    Option (List Char × ParamsSrc) :=
  match searchFT matchBareFT response with
  | some (name, blob) => some (name, decodeParams blob)
  | none =>
    match searchFT matchSpacedFT response with
    | some (name, blob) => some (name, decodeParams blob)
    | none => none

end FineTuned

/-- One item of a list-shaped probe result: the source distinguishes tuple
items from other items with `isinstance(item, tuple)`. -/
inductive PyItem where
  | pair (title content : String)
  | str (s : String)
  deriving DecidableEq, Repr

/-- The value returned by a diagnostic probe, as the executors distinguish it
at runtime: a `(title, content)` tuple, a list of items, or anything else
(rendered with `str(result)`, whose text the `other` constructor carries). -/
inductive DiagResult where
  | single (title content : String)
  | multi (items : List PyItem)
  | other (s : String)
  deriving DecidableEq, Repr

/-- The behaviour of the external diagnostic probes for one invocation: for a
registered name, either a returned `DiagResult` or a raised exception whose
text is the `Except.error` payload.  The probes themselves (OS commands) are
external collaborators; the executors are verified for every probe
behaviour. -/
abbrev ProbeImpl := String → Except String DiagResult

namespace Main

/-- The keys of `AVAILABLE_FUNCTIONS` (src/main.py lines 27-132), in source
order. -/
def AVAILABLE_FUNCTION_NAMES : List String :=
  ["get_uptime_info", "get_cpu_info", "get_memory_info", "get_disk_info",
   "get_network_info", "get_system_info", "get_process_info", "get_user_info"]

/-- `SystemDiagnosisChat.format_function_results` (src/main.py lines
188-202). -/
def format_function_results : DiagResult → String
  | .single title content => ("\n") ++ title ++ (":\n") ++ content
  | .multi items =>
    items.foldl
      (fun acc item =>
        match item with
        | .pair title content => acc ++ ("\n") ++ title ++ (":\n") ++ content ++ ("\n")
        | .str s => acc ++ ("\n") ++ s)
      ("")
  | .other s => s

/-- `SystemDiagnosisChat.execute_function_call` (src/main.py lines 204-215):
unknown names get the structured error string; for known names the probe is
invoked inside `try`, a raised exception becoming the
`Error executing {name}: {detail}` text. -/
def execute_function_call (impl : ProbeImpl) (func_name : String) : String :=
  if func_name ∈ AVAILABLE_FUNCTION_NAMES then
    match impl func_name with
    | .ok result => format_function_results result
    | .error e => ("Error executing ") ++ func_name ++ (": ") ++ e
  else ("Error: Unknown function '") ++ func_name ++ ("'")

end Main

namespace FineTuned

/-- The keys of `FUNCTIONS` (src/main_finetuned.py lines 27-36), in source
order. -/
def FUNCTIONS : List String :=
  ["get_uptime_info", "get_cpu_info", "get_memory_info", "get_disk_info",
   "get_network_info", "get_system_info", "get_process_info", "get_user_info"]

/-- The result normalization inside `FineTunedAgent.execute_function`
(src/main_finetuned.py lines 195-204): a tuple renders as `{t}:\n{c}`, a
list as one `{t}:\n{c}\n\n` block per tuple item (non-tuple items add
nothing), anything else as `str(result)`. -/
def normalize_result : DiagResult → String
  | .single title content => title ++ (":\n") ++ content
  | .multi items =>
    items.foldl
      (fun acc item =>
        match item with
        | .pair title content => acc ++ title ++ (":\n") ++ content ++ ("\n\n")
        | .str _ => acc)
      ("")
  | .other s => s

/-- `FineTunedAgent.execute_function` (src/main_finetuned.py lines 189-206):
unknown names get the structured error string; a raised exception becomes
the `Error: {detail}` text. -/
def execute_function (impl : ProbeImpl) (func_name : String) : String :=
  if func_name ∈ FUNCTIONS then
    match impl func_name with
    | .ok result => normalize_result result
    | .error e => ("Error: ") ++ e
  else ("Error: Unknown function ") ++ func_name

end FineTuned

namespace Main

/-- The fully-bracketed literal encoding of a call with empty argument:
start marker, `call:`, the name, optional empty braces, end marker. -/
def encodeBracketedCall (name : String) (braces : Bool) : List Char :=
  START_MARK ++ CALL_COLON ++ name.data
    ++ (if braces then ['\x7b', '\x7d'] else []) ++ END_MARK

end Main

/-- One rendered block per `(title, content)` pair, concatenated in source
order (no reordering, no deduplication): the shape of both normalizers on a
list-shaped probe result. -/
def blocksConcat (g : String × String → String) : List (String × String) → String
  | [] => ""
  | p :: ps => g p ++ blocksConcat g ps

/-! ### Helper lemmas on the scanning primitives -/

theorem length_dropWhile_le (p : Char → Bool) (l : List Char) :
    (l.dropWhile p).length ≤ l.length := by
  induction l with
  | nil => simp
  | cons c t ih =>
    rw [List.dropWhile_cons]
    by_cases h : p c = true
    · simp only [h, if_true]
      exact Nat.le_succ_of_le ih
    · simp [h]

theorem stripPrefixL_append (p t : List Char) :
    stripPrefixL p (p ++ t) = some t := by
  induction p with
  | nil => rfl
  | cons c ps ih => simpa [stripPrefixL] using ih

theorem stripPrefixL_length {p s r : List Char}
    (h : stripPrefixL p s = some r) : s.length = p.length + r.length := by
  induction p generalizing s with
  | nil =>
    simp only [stripPrefixL] at h
    cases h
    simp
  | cons c ps ih =>
    cases s with
    | nil => simp [stripPrefixL] at h
    | cons d ds =>
      simp only [stripPrefixL] at h
      by_cases hd : d = c
      · rw [if_pos hd] at h
        have := ih h
        simp [this]
        omega
      · rw [if_neg hd] at h
        cases h

theorem stripPrefixL_cons_ne {p c : Char} {ps cs : List Char} (h : c ≠ p) :
    stripPrefixL (p :: ps) (c :: cs) = none := by
  simp [stripPrefixL, h]

theorem takeWhile_append_all {p : Char → Bool} {a : List Char}
    (h : ∀ c ∈ a, p c = true) (b : List Char) :
    (a ++ b).takeWhile p = a ++ b.takeWhile p := by
  induction a with
  | nil => simp
  | cons c t ih =>
    have hc : p c = true := h c (by simp)
    simp [List.takeWhile_cons, hc, ih (fun x hx => h x (by simp [hx]))]

theorem dropWhile_append_all {p : Char → Bool} {a : List Char}
    (h : ∀ c ∈ a, p c = true) (b : List Char) :
    (a ++ b).dropWhile p = b.dropWhile p := by
  induction a with
  | nil => simp
  | cons c t ih =>
    have hc : p c = true := h c (by simp)
    simp [List.dropWhile_cons, hc, ih (fun x hx => h x (by simp [hx]))]

theorem takeWhile_all_eq {p : Char → Bool} {a : List Char}
    (h : ∀ c ∈ a, p c = true) : a.takeWhile p = a := by
  have := takeWhile_append_all h []
  simpa using this

theorem dropWhile_all_nil {p : Char → Bool} {a : List Char}
    (h : ∀ c ∈ a, p c = true) : a.dropWhile p = [] := by
  have := dropWhile_append_all h []
  simpa using this

theorem braceOpt_length_le (l : List Char) : (braceOpt l).length ≤ l.length := by
  unfold braceOpt
  split
  · rename_i r3
    split
    · rename_i r5 hdrop
      have h1 : ('\x7d' :: r5).length ≤ r3.length := by
        rw [← hdrop]
        exact length_dropWhile_le _ _
      simp only [List.length_cons] at h1 ⊢
      omega
    · exact Nat.le_refl _
  · exact Nat.le_refl _

namespace Main

theorem matchBare_shrinks {s n r : List Char}
    (h : matchBare s = some (n, r)) : r.length < s.length := by
  unfold matchBare at h
  cases hs : stripPrefixL CALL_COLON s with
  | none => rw [hs] at h; cases h
  | some rest =>
    rw [hs] at h
    simp only at h
    by_cases hn : rest.takeWhile isWordChar = []
    · rw [if_pos hn] at h; cases h
    · rw [if_neg hn] at h
      cases h
      have h1 : s.length = 5 + rest.length := stripPrefixL_length hs
      have h2 := braceOpt_length_le (rest.dropWhile isWordChar)
      have h3 := length_dropWhile_le isWordChar rest
      omega

theorem matchSpaced_shrinks {s n r : List Char}
    (h : matchSpaced s = some (n, r)) : r.length < s.length := by
  unfold matchSpaced at h
  cases hs : stripPrefixL CALL_WORD s with
  | none => rw [hs] at h; cases h
  | some rest =>
    rw [hs] at h
    simp only at h
    by_cases hsp : rest.takeWhile isSpaceChar = []
    · rw [if_pos hsp] at h; cases h
    · rw [if_neg hsp] at h
      by_cases hn : (rest.dropWhile isSpaceChar).takeWhile isWordChar = []
      · rw [if_pos hn] at h; cases h
      · rw [if_neg hn] at h
        cases h
        have h1 : s.length = 4 + rest.length := stripPrefixL_length hs
        have h2 := braceOpt_length_le ((rest.dropWhile isSpaceChar).dropWhile isWordChar)
        have h3 := length_dropWhile_le isWordChar (rest.dropWhile isSpaceChar)
        have h4 := length_dropWhile_le isSpaceChar rest
        omega

theorem matchBracketed_shrinks {s n r : List Char}
    (h : matchBracketed s = some (n, r)) : r.length < s.length := by
  unfold matchBracketed at h
  cases hs : stripPrefixL (START_MARK ++ CALL_COLON) s with
  | none => rw [hs] at h; cases h
  | some rest =>
    rw [hs] at h
    simp only at h
    by_cases hn : rest.takeWhile isWordChar = []
    · rw [if_pos hn] at h; cases h
    · rw [if_neg hn] at h
      have h1 : s.length = 26 + rest.length := by
        have := stripPrefixL_length hs
        simpa [START_MARK, CALL_COLON] using this
      have h3 := length_dropWhile_le isWordChar rest
      split at h
      · rename_i r3 hr3
        split at h
        · rename_i r5 hr5
          cases he : stripPrefixL END_MARK r5 with
          | none => rw [he] at h; cases h
          | some r6 =>
            rw [he] at h
            cases h
            have h4 : r5.length = r.length + 19 := by
              have := stripPrefixL_length he
              simp [END_MARK] at this
              omega
            have h5 : ('\x7d' :: r5).length ≤ r3.length := by
              rw [← hr5]
              exact length_dropWhile_le _ _
            have h6 : ('\x7b' :: r3).length ≤ rest.length := by
              rw [← hr3]
              exact h3
            simp only [List.length_cons] at h5 h6
            omega
        · cases h
      · rename_i hrest2
        cases he : stripPrefixL END_MARK (rest.dropWhile isWordChar) with
        | none => rw [he] at h; cases h
        | some r6 =>
          rw [he] at h
          cases h
          have h4 : (rest.dropWhile isWordChar).length = r.length + 19 := by
            have := stripPrefixL_length he
            simp [END_MARK] at this
            omega
          omega

theorem goFindall_congr
    (m : List Char → Option (List Char × List Char))
    (hm : ∀ s n r, m s = some (n, r) → r.length < s.length) :
    ∀ f g s, s.length < f → s.length < g → goFindall m f s = goFindall m g s := by
  intro f
  induction f with
  | zero => intro g s hf _; omega
  | succ f ih =>
    intro g s hf hg
    cases g with
    | zero => omega
    | succ g =>
      cases s with
      | nil => simp [goFindall]
      | cons c t =>
        simp only [List.length_cons] at hf hg
        cases hmc : m (c :: t) with
        | none =>
          simp only [goFindall, hmc]
          exact ih g t (by omega) (by omega)
        | some p =>
          obtain ⟨n, r⟩ := p
          simp only [goFindall, hmc]
          have hr : r.length < t.length + 1 := by
            simpa using hm _ _ _ hmc
          exact congrArg (n :: ·) (ih g r (by omega) (by omega))


theorem goFindall_top_some
    (m : List Char → Option (List Char × List Char))
    (hm : ∀ s n r, m s = some (n, r) → r.length < s.length)
    {s n r : List Char} (h : m s = some (n, r)) :
    goFindall m (s.length + 1) s = n :: goFindall m (r.length + 1) r := by
  cases s with
  | nil =>
    have := hm _ _ _ h
    simp at this
  | cons c t =>
    simp only [List.length_cons, goFindall, h]
    have hr : r.length < t.length + 1 := by
      simpa using hm _ _ _ h
    exact congrArg (n :: ·) (goFindall_congr m hm _ _ r (by omega) (by omega))

theorem findallBare_some {s n r : List Char} (h : matchBare s = some (n, r)) :
    findallBare s = n :: findallBare r :=
  goFindall_top_some matchBare (fun _ _ _ hh => matchBare_shrinks hh) h

theorem findallBare_none {c : Char} {t : List Char}
    (h : matchBare (c :: t) = none) : findallBare (c :: t) = findallBare t := by
  simp only [findallBare, List.length_cons, goFindall, h]

theorem findallBare_nil : findallBare [] = [] := rfl

theorem findallBracketed_none {c : Char} {t : List Char}
    (h : matchBracketed (c :: t) = none) :
    findallBracketed (c :: t) = findallBracketed t := by
  simp only [findallBracketed, List.length_cons, goFindall, h]

theorem matchBracketed_cons_ne {c : Char} {t : List Char} (h : c ≠ '<') :
    matchBracketed (c :: t) = none := by
  have hmark : START_MARK ++ CALL_COLON
      = '<' :: (("start_function_call>").data ++ CALL_COLON) := by decide
  rw [matchBracketed, hmark, stripPrefixL_cons_ne h]

theorem findallBracketed_eq_nil {s : List Char} (h : ∀ c ∈ s, c ≠ '<') :
    findallBracketed s = [] := by
  induction s with
  | nil => rfl
  | cons c t ih =>
    rw [findallBracketed_none (matchBracketed_cons_ne (h c (by simp)))]
    exact ih (fun x hx => h x (by simp [hx]))

theorem isWordChar_ne_lt {c : Char} (h : isWordChar c = true) : c ≠ '<' := by
  intro he
  subst he
  simp [isWordChar] at h

theorem matchBare_at_call (rest : List Char) :
    matchBare (CALL_COLON ++ rest)
      = (if rest.takeWhile isWordChar = [] then none
         else some (rest.takeWhile isWordChar,
                    braceOpt (rest.dropWhile isWordChar))) := by
  rw [matchBare, stripPrefixL_append]

theorem matchBare_cons_ne {c : Char} {t : List Char} (h : c ≠ 'c') :
    matchBare (c :: t) = none := by
  rw [matchBare, show CALL_COLON = 'c' :: ['a', 'l', 'l', ':'] from rfl,
    stripPrefixL_cons_ne h]

/-- `re.findall` of the bare pattern on a two-call input: the scan matches at
the first `call:`, resumes at the separating space, and matches again at the
second `call:`. -/
theorem findallBare_two_calls {n1 n2 : List Char}
    (h1 : n1 ≠ []) (h1w : ∀ c ∈ n1, isWordChar c = true)
    (h2 : n2 ≠ []) (h2w : ∀ c ∈ n2, isWordChar c = true) :
    findallBare (CALL_COLON ++ (n1 ++ ' ' :: (CALL_COLON ++ n2))) = [n1, n2] := by
  have hsp : isWordChar ' ' = false := by decide
  have hm1 : matchBare (CALL_COLON ++ (n1 ++ ' ' :: (CALL_COLON ++ n2)))
      = some (n1, ' ' :: (CALL_COLON ++ n2)) := by
    rw [matchBare_at_call]
    rw [takeWhile_append_all h1w, dropWhile_append_all h1w]
    rw [List.takeWhile_cons, List.dropWhile_cons]
    simp only [hsp, Bool.false_eq_true, if_false, List.append_nil]
    rw [if_neg h1]
    rfl
  rw [findallBare_some hm1]
  have hsk : matchBare (' ' :: (CALL_COLON ++ n2)) = none :=
    matchBare_cons_ne (by decide)
  rw [findallBare_none hsk]
  have hm2 : matchBare (CALL_COLON ++ n2) = some (n2, []) := by
    rw [matchBare_at_call]
    rw [takeWhile_all_eq h2w, dropWhile_all_nil h2w]
    rw [if_neg h2]
    rfl
  rw [findallBare_some hm2, findallBare_nil]

end Main

/-! ### Substring and folding helpers -/

theorem isPrefixOf_append_self (l r : List Char) : l.isPrefixOf (l ++ r) = true := by
  rw [List.isPrefixOf_iff_prefix]
  exact List.prefix_append l r

theorem containsSubL_append_mid (nd a b : List Char) :
    containsSubL nd (a ++ (nd ++ b)) = true := by
  induction a with
  | nil =>
    cases nd with
    | nil =>
      cases b with
      | nil => rfl
      | cons x xs => simp [containsSubL]
    | cons c nds =>
      have h := isPrefixOf_append_self (c :: nds) b
      simp only [List.nil_append, List.cons_append] at h ⊢
      simp [containsSubL, h]
  | cons x a2 ih =>
    simp [containsSubL, ih]

theorem foldl_pair_generic
    (step : String → PyItem → String)
    (g : String × String → String)
    (hstep : ∀ acc p, step acc (PyItem.pair p.1 p.2) = acc ++ g p)
    (items : List (String × String)) (a : String) :
    (items.map (fun p => PyItem.pair p.1 p.2)).foldl step a
      = a ++ blocksConcat g items := by
  induction items generalizing a with
  | nil => simp [blocksConcat]
  | cons p ps ih =>
    simp only [List.map_cons, List.foldl_cons, hstep, blocksConcat]
    rw [ih, String.append_assoc]

theorem searchFT_head {m : List Char → Option (List Char × Option (List Char))}
    {s : List Char} {r : List Char × Option (List Char)}
    (h : m s = some r) (hs : s ≠ []) : FineTuned.searchFT m s = some r := by
  cases s with
  | nil => exact absurd rfl hs
  | cons c t => simp only [FineTuned.searchFT, h]

/-! ### Claim theorems -/

/-- Claim C1: for every input string, `SystemDiagnosisChat.parse_function_call`
tries the fully-bracketed, bare `call:` and spaced `call` patterns in that
priority order and returns exactly the matches of the first pattern with at
least one match (never merging patterns); when no pattern matches it returns
the empty list rather than failing. -/
theorem parse_first_pattern_wins (s : List Char) :
    (Main.findallBracketed s ≠ [] →
      Main.parse_function_call s = Main.findallBracketed s)
  ∧ (Main.findallBracketed s = [] → Main.findallBare s ≠ [] →
      Main.parse_function_call s = Main.findallBare s)
  ∧ (Main.findallBracketed s = [] → Main.findallBare s = [] →
      Main.findallSpaced s ≠ [] →
      Main.parse_function_call s = Main.findallSpaced s)
  ∧ (Main.findallBracketed s = [] → Main.findallBare s = [] →
      Main.findallSpaced s = [] → Main.parse_function_call s = []) := by
  simp only [Main.parse_function_call, Main.firstNonempty]
  refine ⟨fun h1 => ?_, fun h1 h2 => ?_, fun h1 h2 h3 => ?_, fun h1 h2 h3 => ?_⟩
  · rw [if_neg h1]
  · rw [if_pos h1, if_neg h2]
  · rw [if_pos h1, if_pos h2, if_neg h3]
  · rw [if_pos h1, if_pos h2, if_pos h3]

/-- Witness for C1 at a concrete input where the bare pattern wins. -/
theorem parse_first_pattern_wins_witness :
    Main.parse_function_call (("call:get_cpu_info").data)
      = Main.findallBare (("call:get_cpu_info").data) :=
  (parse_first_pattern_wins (("call:get_cpu_info").data)).2.1 (by decide) (by decide)

/-- Claim C2 counterexample: the fine-tuned extractor cited by the claim
(`FineTunedAgent.parse_function_call`, which uses `re.search`) returns only
the leftmost call on the claim's own two-call input: its whole result names
`get_cpu_info` (with the default `{}` blob handed on to the params
decoding), and `get_memory_info` appears nowhere in it — never the claimed
two-element sequence. -/
theorem finetuned_first_call_only :
    FineTuned.parse_function_call
      (("call:get_cpu_info call:get_memory_info").data)
      = some ((("get_cpu_info").data),
          FineTuned.ParamsSrc.evaled (("\x7b\x7d").data)) := by
  decide

/-- Claim C2 (amended): on an input consisting of two non-overlapping
bare-form calls separated by a space, `main.py`'s extractor (which uses
`re.findall`) returns the two captured names in left-to-right order of
appearance, while `main_finetuned.py`'s extractor (which uses `re.search`)
returns only the first call, with the second name absent from its result. -/
theorem parse_two_bare_calls (n1 n2 : List Char)
    (h1 : n1 ≠ []) (h1w : ∀ c ∈ n1, isWordChar c = true)
    (h2 : n2 ≠ []) (h2w : ∀ c ∈ n2, isWordChar c = true) :
    Main.parse_function_call (CALL_COLON ++ (n1 ++ ' ' :: (CALL_COLON ++ n2)))
      = [n1, n2]
  ∧ FineTuned.parse_function_call (CALL_COLON ++ (n1 ++ ' ' :: (CALL_COLON ++ n2)))
      = some (n1, FineTuned.ParamsSrc.evaled (("\x7b\x7d").data)) := by
  have hsp : isWordChar ' ' = false := by decide
  constructor
  · have hlt : ∀ c ∈ CALL_COLON ++ (n1 ++ ' ' :: (CALL_COLON ++ n2)), c ≠ '<' := by
      intro c hc
      simp only [List.mem_append, List.mem_cons] at hc
      rcases hc with h | h | h | h | h
      · simp only [CALL_COLON, List.mem_cons, List.not_mem_nil, or_false] at h
        rcases h with rfl | rfl | rfl | rfl | rfl <;> decide
      · exact Main.isWordChar_ne_lt (h1w c h)
      · subst h; decide
      · simp only [CALL_COLON, List.mem_cons, List.not_mem_nil, or_false] at h
        rcases h with rfl | rfl | rfl | rfl | rfl <;> decide
      · exact Main.isWordChar_ne_lt (h2w c h)
    have hbr := Main.findallBracketed_eq_nil hlt
    have hbare := Main.findallBare_two_calls h1 h1w h2 h2w
    simp only [Main.parse_function_call, Main.firstNonempty]
    rw [if_pos hbr, if_neg (by rw [hbare]; simp)]
    exact hbare
  · have hmFT : FineTuned.matchBareFT
        (CALL_COLON ++ (n1 ++ ' ' :: (CALL_COLON ++ n2))) = some (n1, none) := by
      rw [FineTuned.matchBareFT, stripPrefixL_append]
      simp only
      rw [takeWhile_append_all h1w, dropWhile_append_all h1w]
      rw [List.takeWhile_cons, List.dropWhile_cons]
      simp only [hsp, Bool.false_eq_true, if_false, List.append_nil]
      rw [if_neg h1]
      rfl
    have hsFT : FineTuned.searchFT FineTuned.matchBareFT
        (CALL_COLON ++ (n1 ++ ' ' :: (CALL_COLON ++ n2))) = some (n1, none) :=
      searchFT_head hmFT (by simp [CALL_COLON])
    rw [FineTuned.parse_function_call, hsFT]
    rfl

/-- Witness for C2 (amended) at the concrete input of the claim: `main.py`'s
extractor yields both names in order, the fine-tuned one only the first. -/
theorem parse_two_bare_calls_witness :
    Main.parse_function_call (("call:get_cpu_info call:get_memory_info").data)
      = [("get_cpu_info").data, ("get_memory_info").data]
  ∧ FineTuned.parse_function_call (("call:get_cpu_info call:get_memory_info").data)
      = some ((("get_cpu_info").data),
          FineTuned.ParamsSrc.evaled (("\x7b\x7d").data)) := by
  have h := parse_two_bare_calls (("get_cpu_info").data) (("get_memory_info").data)
    (by decide) (by decide) (by decide) (by decide)
  have e : ("call:get_cpu_info call:get_memory_info").data
      = CALL_COLON ++ ((("get_cpu_info").data)
        ++ ' ' :: (CALL_COLON ++ (("get_memory_info").data))) := by decide
  rw [e]
  exact h

/-- Claim C9: for every registered function name, parsing the fully-bracketed
literal encoding of a call to that name with empty argument (with or
without the optional empty braces) returns exactly that one name. -/
theorem bracketed_roundtrip (f : String)
    (hf : f ∈ Main.AVAILABLE_FUNCTION_NAMES) :
    Main.parse_function_call (Main.encodeBracketedCall f false) = [f.data]
  ∧ Main.parse_function_call (Main.encodeBracketedCall f true) = [f.data] := by
  fin_cases hf <;> exact ⟨by decide, by decide⟩

/-- Witness for C9 at `get_cpu_info`. -/
theorem bracketed_roundtrip_witness :
    Main.parse_function_call (Main.encodeBracketedCall ("get_cpu_info") false)
      = [("get_cpu_info").data]
  ∧ Main.parse_function_call (Main.encodeBracketedCall ("get_cpu_info") true)
      = [("get_cpu_info").data] :=
  bracketed_roundtrip ("get_cpu_info") (by decide)

/-- Claim C10: the extractor does not validate extracted names against the
dispatch table: `call me later` parses (via the spaced pattern only) to the
single name `me`, which is not registered; membership is checked only by the
executor, which rejects `me` with the unknown-function outcome for every
probe assignment. -/
theorem parse_no_name_validation :
    Main.parse_function_call (("call me later").data) = [("me").data]
  ∧ Main.findallBracketed (("call me later").data) = []
  ∧ Main.findallBare (("call me later").data) = []
  ∧ Main.findallSpaced (("call me later").data) = [("me").data]
  ∧ (("me" : String) ∉ Main.AVAILABLE_FUNCTION_NAMES)
  ∧ ∀ impl : ProbeImpl,
      Main.execute_function_call impl ("me") = ("Error: Unknown function 'me'") := by
  refine ⟨by decide, by decide, by decide, by decide, by decide, fun impl => ?_⟩
  simp only [Main.execute_function_call, if_neg (by decide :
    ¬ (("me" : String) ∈ Main.AVAILABLE_FUNCTION_NAMES))]
  rfl

/-- Witness for C10 under a concrete probe assignment. -/
theorem parse_no_name_validation_witness :
    Main.execute_function_call (fun _ => Except.ok (DiagResult.other (""))) ("me")
      = ("Error: Unknown function 'me'") :=
  parse_no_name_validation.2.2.2.2.2 (fun _ => Except.ok (DiagResult.other ("")))

/-- Claim C4: for every name outside the registered set, both executors return the
structured unknown-function text naming the offending identifier — the
result is the same for every probe assignment, so no probe is invoked — and
never raise. -/
theorem unknown_function_no_invoke (impl : ProbeImpl) (name : String)
    (h1 : name ∉ Main.AVAILABLE_FUNCTION_NAMES)
    (h2 : name ∉ FineTuned.FUNCTIONS) :
    Main.execute_function_call impl name
      = ("Error: Unknown function '") ++ name ++ ("'")
  ∧ FineTuned.execute_function impl name
      = ("Error: Unknown function ") ++ name
  ∧ containsSubL name.data ((Main.execute_function_call impl name)).data = true
  ∧ containsSubL name.data ((FineTuned.execute_function impl name)).data = true := by
  have e1 : Main.execute_function_call impl name
      = ("Error: Unknown function '") ++ name ++ ("'") := by
    simp only [Main.execute_function_call, if_neg h1]
  have e2 : FineTuned.execute_function impl name
      = ("Error: Unknown function ") ++ name := by
    simp only [FineTuned.execute_function, if_neg h2]
  refine ⟨e1, e2, ?_, ?_⟩
  · rw [e1]
    have e : ((("Error: Unknown function '") ++ name ++ ("'")).data)
        = ("Error: Unknown function '").data ++ (name.data ++ ("'").data) := by
      simp [String.data_append]
    rw [e]
    exact containsSubL_append_mid name.data (("Error: Unknown function '").data) (("'").data)
  · rw [e2]
    have e : ((("Error: Unknown function ") ++ name).data)
        = ("Error: Unknown function ").data ++ (name.data ++ []) := by
      simp [String.data_append]
    rw [e]
    exact containsSubL_append_mid name.data (("Error: Unknown function ").data) []

/-- Witness for C4 at the unknown name of the claim. -/
theorem unknown_function_no_invoke_witness :
    Main.execute_function_call (fun _ => Except.ok (DiagResult.other ("")))
      ("get_nonexistent_info")
      = ("Error: Unknown function 'get_nonexistent_info'")
  ∧ FineTuned.execute_function (fun _ => Except.ok (DiagResult.other ("")))
      ("get_nonexistent_info")
      = ("Error: Unknown function get_nonexistent_info")
  ∧ containsSubL (("get_nonexistent_info").data)
      ((Main.execute_function_call (fun _ => Except.ok (DiagResult.other ("")))
        ("get_nonexistent_info"))).data = true
  ∧ containsSubL (("get_nonexistent_info").data)
      ((FineTuned.execute_function (fun _ => Except.ok (DiagResult.other ("")))
        ("get_nonexistent_info"))).data = true :=
  unknown_function_no_invoke (fun _ => Except.ok (DiagResult.other ("")))
    ("get_nonexistent_info") (by decide) (by decide)

/-- Claim C5 counterexample: the fine-tuned executor (one of the two executors the
claim is about) catches a raising probe but returns `Error: {detail}`, which
is not of the claimed `Error executing {name}: {detail}` form and does not
contain the probe name. -/
theorem probe_error_lacks_name :
    FineTuned.execute_function (fun _ => Except.error ("boom")) ("get_cpu_info")
      = ("Error: boom")
  ∧ FineTuned.execute_function (fun _ => Except.error ("boom")) ("get_cpu_info")
      ≠ ("Error executing get_cpu_info: boom")
  ∧ containsSubL (("get_cpu_info").data)
      ((FineTuned.execute_function (fun _ => Except.error ("boom"))
        ("get_cpu_info"))).data = false := by
  exact ⟨by decide, by decide, by decide⟩

/-- Claim C5 (amended): for every registered name whose probe raises, both
executors catch the failure and return a textual result; `main.py`'s
executor returns `Error executing {name}: {detail}`, whose text contains
the probe name, while `main_finetuned.py`'s executor returns
`Error: {detail}`, without the name. -/
theorem probe_error_messages (impl : ProbeImpl) (name d : String)
    (h1 : name ∈ Main.AVAILABLE_FUNCTION_NAMES)
    (h2 : name ∈ FineTuned.FUNCTIONS)
    (he : impl name = Except.error d) :
    Main.execute_function_call impl name
      = ("Error executing ") ++ name ++ (": ") ++ d
  ∧ containsSubL name.data ((Main.execute_function_call impl name)).data = true
  ∧ FineTuned.execute_function impl name = ("Error: ") ++ d := by
  have e1 : Main.execute_function_call impl name
      = ("Error executing ") ++ name ++ (": ") ++ d := by
    simp only [Main.execute_function_call, if_pos h1, he]
  refine ⟨e1, ?_, ?_⟩
  · rw [e1]
    have e : ((("Error executing ") ++ name ++ (": ") ++ d).data)
        = ("Error executing ").data ++ (name.data ++ ((": ").data ++ d.data)) := by
      simp [String.data_append]
    rw [e]
    exact containsSubL_append_mid name.data (("Error executing ").data)
      ((": ").data ++ d.data)
  · simp only [FineTuned.execute_function, if_pos h2, he]

/-- Witness for C5 (amended) at `get_cpu_info` with a raising probe. -/
theorem probe_error_messages_witness :
    Main.execute_function_call (fun _ => Except.error ("boom")) ("get_cpu_info")
      = ("Error executing get_cpu_info: boom")
  ∧ containsSubL (("get_cpu_info").data)
      ((Main.execute_function_call (fun _ => Except.error ("boom"))
        ("get_cpu_info"))).data = true
  ∧ FineTuned.execute_function (fun _ => Except.error ("boom")) ("get_cpu_info")
      = ("Error: boom") :=
  probe_error_messages (fun _ => Except.error ("boom")) ("get_cpu_info") ("boom")
    (by decide) (by decide) rfl

/-- Claim C8 counterexample: `main.py`'s `format_function_results` renders a single
pair with a leading newline, not as the exact string `{title}:\n{content}`. -/
theorem format_single_not_exact :
    Main.format_function_results (DiagResult.single ("T") ("C")) ≠ ("T:\nC")
  ∧ Main.format_function_results (DiagResult.single ("T") ("C")) = ("\nT:\nC") := by
  exact ⟨by decide, by decide⟩

/-- Claim C8 (amended): normalization is shape-faithful with the following exact
block shapes: the fine-tuned executor renders a single pair as
`{title}:\n{content}` and a sequence as one `{t}:\n{c}\n\n` block per pair;
`main.py`'s `format_function_results` prefixes each block with a newline,
rendering `\n{title}:\n{content}` for a single pair and one `\n{t}:\n{c}\n`
block per sequence pair.  In both, blocks appear in source order, one per
pair, with no reordering and no deduplication. -/
theorem normalization_shapes (t c : String) (items : List (String × String)) :
    FineTuned.normalize_result (DiagResult.single t c) = t ++ (":\n") ++ c
  ∧ Main.format_function_results (DiagResult.single t c)
      = ("\n") ++ t ++ (":\n") ++ c
  ∧ FineTuned.normalize_result
      (DiagResult.multi (items.map (fun p => PyItem.pair p.1 p.2)))
      = blocksConcat (fun p => p.1 ++ (":\n") ++ p.2 ++ ("\n\n")) items
  ∧ Main.format_function_results
      (DiagResult.multi (items.map (fun p => PyItem.pair p.1 p.2)))
      = blocksConcat (fun p => ("\n") ++ p.1 ++ (":\n") ++ p.2 ++ ("\n")) items := by
  refine ⟨rfl, rfl, ?_, ?_⟩
  · have h := foldl_pair_generic
      (fun acc item => match item with
        | .pair title content => acc ++ title ++ (":\n") ++ content ++ ("\n\n")
        | .str _ => acc)
      (fun p => p.1 ++ (":\n") ++ p.2 ++ ("\n\n"))
      (fun acc p => by simp [String.append_assoc])
      items ("")
    simpa [FineTuned.normalize_result] using h
  · have h := foldl_pair_generic
      (fun acc item => match item with
        | .pair title content => acc ++ ("\n") ++ title ++ (":\n") ++ content ++ ("\n")
        | .str s => acc ++ ("\n") ++ s)
      (fun p => ("\n") ++ p.1 ++ (":\n") ++ p.2 ++ ("\n"))
      (fun acc p => by simp [String.append_assoc])
      items ("")
    simpa [Main.format_function_results] using h

/-- Witness for C8 (amended) at a concrete two-pair result with duplicate
pairs preserved. -/
theorem normalization_shapes_witness :
    FineTuned.normalize_result (DiagResult.single ("T") ("C")) = ("T:\nC")
  ∧ Main.format_function_results (DiagResult.single ("T") ("C")) = ("\nT:\nC")
  ∧ FineTuned.normalize_result
      (DiagResult.multi ([(("A"), ("x")), (("A"), ("x"))].map
        (fun p => PyItem.pair p.1 p.2)))
      = blocksConcat (fun p => p.1 ++ (":\n") ++ p.2 ++ ("\n\n"))
          [(("A"), ("x")), (("A"), ("x"))]
  ∧ Main.format_function_results
      (DiagResult.multi ([(("A"), ("x")), (("A"), ("x"))].map
        (fun p => PyItem.pair p.1 p.2)))
      = blocksConcat (fun p => ("\n") ++ p.1 ++ (":\n") ++ p.2 ++ ("\n"))
          [(("A"), ("x")), (("A"), ("x"))] :=
  normalization_shapes ("T") ("C") [(("A"), ("x")), (("A"), ("x"))]

/-! ### Lemmas for the escape-delimited argument decoding -/

theorem containsSubL_cons_false {nd : List Char} {c : Char} {t : List Char}
    (h : containsSubL nd (c :: t) = false) :
    nd.isPrefixOf (c :: t) = false ∧ containsSubL nd t = false := by
  have h2 := h
  simp only [containsSubL, Bool.or_eq_false_iff] at h2
  exact h2

/-- `<escape>` has no nonempty proper border, so an occurrence of the token
starting inside a token-free head segment cannot straddle into an appended
token: it would have to lie entirely within the head segment. -/
theorem esc_prefix_no_straddle {u rest : List Char} (hu : u ≠ [])
    (h : ESC_TOK <+: (u ++ (ESC_TOK ++ rest))) : ESC_TOK <+: u := by
  by_cases hlen : ESC_TOK.length ≤ u.length
  · exact List.prefix_of_prefix_length_le h (List.prefix_append u _) hlen
  · exfalso
    have hu8 : u.length < ESC_TOK.length := by omega
    have hupre : u <+: ESC_TOK :=
      List.prefix_of_prefix_length_le (List.prefix_append u _) h (by omega)
    obtain ⟨v, hv⟩ := hupre
    have hvpre : v <+: (ESC_TOK ++ rest) := by
      have : u ++ v <+: u ++ (ESC_TOK ++ rest) := by
        rw [hv]
        exact h
      exact (List.prefix_append_right_inj u).mp this
    have hvesc : v <+: ESC_TOK := by
      refine List.prefix_of_prefix_length_le hvpre (List.prefix_append ESC_TOK rest) ?_
      have : u.length + v.length = ESC_TOK.length := by
        rw [← hv]
        simp
      omega
    have hvdrop : ESC_TOK.drop u.length = v := by
      rw [← hv]
      exact List.drop_left u v
    have hk1 : 1 ≤ u.length := by
      have := List.length_pos.mpr hu
      omega
    have hk7 : u.length ≤ 7 := by
      have : ESC_TOK.length = 8 := by decide
      omega
    rw [← hvdrop] at hvesc
    have hcases : u.length = 1 ∨ u.length = 2 ∨ u.length = 3 ∨ u.length = 4
        ∨ u.length = 5 ∨ u.length = 6 ∨ u.length = 7 := by omega
    rcases hcases with hk | hk | hk | hk | hk | hk | hk <;> rw [hk] at hvesc <;>
      exact absurd hvesc (by decide)

/-- The lazy capture `(.*?)` before the closing `<escape>` stops exactly at
the appended token when the captured text itself contains no occurrence of
the token. -/
theorem splitFirst_boundary {rest : List Char} :
    ∀ {msg : List Char}, containsSubL ESC_TOK msg = false →
    splitFirst ESC_TOK (msg ++ (ESC_TOK ++ rest)) = some (msg, rest) := by
  intro msg
  induction msg with
  | nil =>
    intro _
    have hpre : ESC_TOK.isPrefixOf (ESC_TOK ++ rest) = true :=
      isPrefixOf_append_self ESC_TOK rest
    have hshape : ESC_TOK ++ rest = '<' :: ((("escape>").data) ++ rest) := rfl
    rw [List.nil_append, hshape, splitFirst, ← hshape, if_pos hpre]
    rw [show (ESC_TOK ++ rest).drop ESC_TOK.length = rest from List.drop_left ESC_TOK rest]
  | cons c m ih =>
    intro h
    obtain ⟨hnp, hrec⟩ := containsSubL_cons_false h
    have hcond : ESC_TOK.isPrefixOf (c :: (m ++ (ESC_TOK ++ rest))) = false := by
      rw [Bool.eq_false_iff]
      intro habs
      have hpp : ESC_TOK <+: ((c :: m) ++ (ESC_TOK ++ rest)) := by
        rw [List.isPrefixOf_iff_prefix] at habs
        simpa using habs
      have := esc_prefix_no_straddle (by simp) hpp
      rw [← List.isPrefixOf_iff_prefix] at this
      rw [this] at hnp
      cases hnp
    rw [List.cons_append, splitFirst, if_neg (by simp [hcond]), ih hrec]

theorem searchEscape_cons_none {c : Char} {t : List Char}
    (h : FineTuned.matchEscapeAt (c :: t) = none) :
    FineTuned.searchEscape (c :: t) = FineTuned.searchEscape t := by
  simp only [FineTuned.searchEscape, h]

theorem searchEscape_head {s : List Char} {g : List Char}
    (h : FineTuned.matchEscapeAt s = some g) (hs : s ≠ []) :
    FineTuned.searchEscape s = some g := by
  cases s with
  | nil => exact absurd rfl hs
  | cons c t => simp only [FineTuned.searchEscape, h]

/-! ### Remaining claim theorems -/

/-- Claim C3 (evidence for the code bug): on a parsed call whose argument blob
follows neither the escape-delimited nor the JSON `message` convention, the
extractor does not fall back to an empty argument — it hands the blob to
Python `eval` (the `evaled` constructor marks exactly the
`params = eval(params_str)` source line), evaluating it as an expression. -/
theorem eval_reaches_blob :
    FineTuned.parse_function_call (("call:console\x7b'message': 'hi'\x7d").data)
      = some (("console").data,
          FineTuned.ParamsSrc.evaled (("\x7b'message': 'hi'\x7d").data)) := by
  decide

/-- Claim C7: on the input `call:console{message:<escape>All good<escape>}` the
extractor returns exactly one parsed call, named `console`, whose argument
is the stripped text `All good`. -/
theorem escape_console_example :
    FineTuned.parse_function_call
      (("call:console\x7bmessage:<escape>All good<escape>\x7d").data)
      = some (("console").data, FineTuned.ParamsSrc.escMsg (("All good").data))
  ∧ pyStrip (("All good").data) = ("All good").data := by
  exact ⟨by decide, by decide⟩

/-- Claim C6 counterexample: for the message `a}b`, which contains a closing brace,
the escape-delimited convention is not decoded: the group-2 blob is truncated
at the first `}`, the escape regex no longer matches inside it, and the
parsed call does not carry the argument `a}b`. -/
theorem escape_brace_counterexample :
    FineTuned.parse_function_call
      (("call:console\x7bmessage:<escape>a\x7db<escape>\x7d").data)
      ≠ some (("console").data, FineTuned.ParamsSrc.escMsg (("a\x7db").data))
  ∧ FineTuned.parse_function_call
      (("call:console\x7bmessage:<escape>a\x7db<escape>\x7d").data)
      = some (("console").data,
          FineTuned.ParamsSrc.evaled (("\x7bmessage:<escape>a\x7d").data)) := by
  exact ⟨by decide, by decide⟩

/-- Claim C6 (amended): for every message containing no closing brace and no
occurrence of the sentinel token `<escape>`, the blob
`{message:<escape>MSG<escape>}` is decoded into a parsed call named
`console` whose argument is MSG with surrounding whitespace stripped. -/
theorem escape_decode_amended (msg : List Char)
    (hbr : '\x7d' ∉ msg)
    (hesc : containsSubL ESC_TOK msg = false) :
    FineTuned.parse_function_call
      ((("call:console\x7bmessage:<escape>").data)
        ++ (msg ++ (("<escape>\x7d").data)))
      = some (("console").data, FineTuned.ParamsSrc.escMsg (pyStrip msg)) := by
  have hmsgbr : ∀ c ∈ msg, notRBrace c = true := by
    intro c hc
    have : c ≠ '\x7d' := fun he => hbr (he ▸ hc)
    simp [notRBrace, this]
  have hshape : (("call:console\x7bmessage:<escape>").data)
        ++ (msg ++ (("<escape>\x7d").data))
      = CALL_COLON ++ ((("console").data)
        ++ '\x7b' :: (MSG_ESC ++ (msg ++ (ESC_TOK ++ ['\x7d'])))) := rfl
  rw [hshape]
  have hconsole : ∀ c ∈ (("console").data), isWordChar c = true := by decide
  have hmesc : ∀ c ∈ MSG_ESC, notRBrace c = true := by decide
  have hesctok : ∀ c ∈ ESC_TOK, notRBrace c = true := by decide
  have htake : (MSG_ESC ++ (msg ++ (ESC_TOK ++ ['\x7d']))).takeWhile notRBrace
      = MSG_ESC ++ (msg ++ (ESC_TOK ++ [])) := by
    rw [takeWhile_append_all hmesc, takeWhile_append_all hmsgbr,
      takeWhile_append_all hesctok]
    rfl
  have hdrop : (MSG_ESC ++ (msg ++ (ESC_TOK ++ ['\x7d']))).dropWhile notRBrace
      = ['\x7d'] := by
    rw [dropWhile_append_all hmesc, dropWhile_append_all hmsgbr,
      dropWhile_append_all hesctok]
    rfl
  have hmatch : FineTuned.matchBareFT
      (CALL_COLON ++ ((("console").data)
        ++ '\x7b' :: (MSG_ESC ++ (msg ++ (ESC_TOK ++ ['\x7d'])))))
      = some ((("console").data),
          some ('\x7b' :: (MSG_ESC ++ (msg ++ (ESC_TOK ++ ['\x7d']))))) := by
    rw [FineTuned.matchBareFT, stripPrefixL_append]
    simp only
    rw [takeWhile_append_all hconsole, dropWhile_append_all hconsole]
    rw [show ('\x7b' :: (MSG_ESC ++ (msg ++ (ESC_TOK ++ ['\x7d'])))).takeWhile isWordChar
        = [] from rfl]
    rw [show ('\x7b' :: (MSG_ESC ++ (msg ++ (ESC_TOK ++ ['\x7d'])))).dropWhile isWordChar
        = '\x7b' :: (MSG_ESC ++ (msg ++ (ESC_TOK ++ ['\x7d']))) from rfl]
    simp only [List.append_nil, List.nil_append]
    rw [if_neg (by simp)]
    rw [hdrop, htake]
    simp [List.append_assoc]
  have hsearch : FineTuned.searchFT FineTuned.matchBareFT
      (CALL_COLON ++ ((("console").data)
        ++ '\x7b' :: (MSG_ESC ++ (msg ++ (ESC_TOK ++ ['\x7d'])))))
      = some ((("console").data),
          some ('\x7b' :: (MSG_ESC ++ (msg ++ (ESC_TOK ++ ['\x7d']))))) :=
    searchFT_head hmatch (by simp [CALL_COLON])
  have hescAt : FineTuned.matchEscapeAt (MSG_ESC ++ (msg ++ (ESC_TOK ++ ['\x7d'])))
      = some msg := by
    simp only [FineTuned.matchEscapeAt, stripPrefixL_append,
      splitFirst_boundary hesc]
  have hescnone : FineTuned.matchEscapeAt
      ('\x7b' :: (MSG_ESC ++ (msg ++ (ESC_TOK ++ ['\x7d'])))) = none := by
    rw [FineTuned.matchEscapeAt,
      show MSG_ESC = 'm' :: (("essage:<escape>").data) from rfl,
      stripPrefixL_cons_ne (by decide)]
  have hse : FineTuned.searchEscape
      ('\x7b' :: (MSG_ESC ++ (msg ++ (ESC_TOK ++ ['\x7d'])))) = some msg := by
    rw [searchEscape_cons_none hescnone]
    exact searchEscape_head hescAt (by simp [MSG_ESC])
  rw [FineTuned.parse_function_call, hsearch]
  simp only [FineTuned.decodeParams, Option.getD_some, hse]

/-- Witness for C6 (amended) at a message with an inner space. -/
theorem escape_decode_amended_witness :
    FineTuned.parse_function_call
      ((("call:console\x7bmessage:<escape>").data)
        ++ ((("hi there").data) ++ (("<escape>\x7d").data)))
      = some (("console").data,
          FineTuned.ParamsSrc.escMsg (pyStrip (("hi there").data))) :=
  escape_decode_amended (("hi there").data) (by decide) (by decide)

end FunctionGemma
